import Mathlib

/-!
Verification of the task_manager repository's authentication core.

Python strings are modelled as `List Char`; Python's `datetime` timestamps
as `Nat` (minutes), so `timedelta(minutes=30)` is `+ 30`.  The cryptographic
primitives `hashlib.pbkdf2_hmac('sha256', ..., 100000)` and `hashlib.sha256`
are external library functions and are taken as parameters
`pbkdf2 : Str → Str → Str` (password, salt ↦ hex digest) and
`sha256 : Str → Str`.  All file I/O is replaced by explicit state passing.
-/

namespace TaskMgr

/-- Characters of a Python string. -/
abbrev Str := List Char

/-- The whitespace characters removed by Python's `str.strip()`
(restricted to the ASCII ones that can appear in this program's data). -/
def isSpace (c : Char) : Bool :=
  c = ' ' || c = '\t' || c = '\n' || c = '\r'

/-- Python `str.lstrip()`. -/
def lstrip (s : Str) : Str := s.dropWhile isSpace

/-- Python `str.rstrip()`. -/
def rstrip (s : Str) : Str := s.rdropWhile isSpace

/-- Python `str.strip()`. -/
def strip (s : Str) : Str := rstrip (lstrip s)

/-- Python `str.lower()` (characters of this program's data are ASCII). -/
def lower (s : Str) : Str := s.map Char.toLower

/-- Python `s.split(sep, 1)`: split at the first occurrence of `sep`;
`none` when `sep` does not occur (in Python that unpacking raises
`ValueError`). -/
def splitFirst (sep : Char) : Str → Option (Str × Str)
  | [] => none
  | c :: cs =>
    if c = sep then some ([], cs)
    else
      match splitFirst sep cs with
      | some (a, b) => some (c :: a, b)
      | none => none

/-- Characters of a Lean string literal. -/
def chars (s : String) : Str := s.toList

/-- `login.verify_password` (src/login.py lines 40-63): legacy format
(no `:`) compares a bare SHA-256 digest; current format splits
`salt:hash` at the first `:` and recompares the PBKDF2 digest.  The
`except` branch returning `False` is the `none` case of `splitFirst`. -/
def verify_password (pbkdf2 : Str → Str → Str) (sha256 : Str → Str)
    (password stored_hash : Str) : Bool :=
  if ¬ stored_hash.contains ':' then
    decide (sha256 password = stored_hash)
  else
    match splitFirst ':' stored_hash with
    | some (salt, hash_hex) => decide (pbkdf2 password salt = hash_hex)
    | none => false

/-- The credential string stored by `register` (src/register.py lines
88-93): `f"{salt}:{password_hash_hex}"` with
`password_hash = pbkdf2_hmac('sha256', password, salt, 100000)`. -/
def registerCredential (pbkdf2 : Str → Str → Str) (salt password : Str) : Str :=
  salt ++ ':' :: pbkdf2 password salt

theorem splitFirst_append (sep : Char) (a b : Str) (h : sep ∉ a) :
    splitFirst sep (a ++ sep :: b) = some (a, b) := by
  induction a with
  | nil => simp [splitFirst]
  | cons c cs ih =>
    have hc : c ≠ sep := by
      intro hcs; exact h (hcs ▸ List.mem_cons_self c cs)
    have hcs : sep ∉ cs := fun hm => h (List.mem_cons_of_mem c hm)
    simp [splitFirst, hc, ih hcs]

theorem contains_append_cons (a b : Str) (c : Char) :
    (a ++ c :: b).contains c = true := by
  simp [List.contains, List.any_eq_true]

theorem dropWhile_append_all {p : Char → Bool} (a b : Str) (h : ∀ c ∈ a, p c) :
    (a ++ b).dropWhile p = b.dropWhile p := by
  induction a with
  | nil => rfl
  | cons c cs ih =>
    have hc : p c := h c (List.mem_cons_self c cs)
    simp only [List.cons_append, List.dropWhile_cons, hc, if_pos]
    exact ih fun x hx => h x (List.mem_cons_of_mem c hx)

theorem dropWhile_append_of_ne_nil {p : Char → Bool} (a b : Str)
    (h : a.dropWhile p ≠ []) :
    (a ++ b).dropWhile p = a.dropWhile p ++ b := by
  induction a with
  | nil => exact absurd rfl h
  | cons c cs ih =>
    by_cases hc : p c
    · simp only [List.dropWhile_cons, hc, if_pos] at h ⊢
      simp only [List.cons_append, List.dropWhile_cons, hc, if_pos]
      exact ih h
    · simp [List.dropWhile_cons, hc]

theorem lstrip_append_all (w s : Str) (h : ∀ c ∈ w, isSpace c) :
    lstrip (w ++ s) = lstrip s :=
  dropWhile_append_all w s h

theorem rstrip_append_all (s w : Str) (h : ∀ c ∈ w, isSpace c) :
    rstrip (s ++ w) = rstrip s := by
  unfold rstrip List.rdropWhile
  rw [List.reverse_append, dropWhile_append_all]
  intro c hc
  exact h c (List.mem_reverse.mp hc)

theorem lstrip_all_space (q : Str) (h : ∀ c ∈ q, isSpace c) : lstrip q = [] := by
  simpa [lstrip, List.dropWhile_eq_nil_iff] using h

theorem strip_all_space (q : Str) (h : ∀ c ∈ q, isSpace c) : strip q = [] := by
  rw [strip, lstrip_all_space q h]
  rfl

/-- Stripping ignores whitespace-only padding on both sides. -/
theorem strip_pad (p w1 w2 : Str) (h1 : ∀ c ∈ w1, isSpace c)
    (h2 : ∀ c ∈ w2, isSpace c) : strip (w1 ++ p ++ w2) = strip p := by
  rw [List.append_assoc, strip, lstrip_append_all _ _ h1]
  by_cases hp : lstrip p = []
  · rw [strip, hp]
    unfold lstrip at hp ⊢
    rw [dropWhile_append_all _ _ (by intro c hc; exact (List.dropWhile_eq_nil_iff.mp hp) c hc)]
    rw [List.dropWhile_eq_nil_iff.mpr h2]
  · rw [strip]
    unfold lstrip at hp ⊢
    rw [dropWhile_append_of_ne_nil _ _ hp]
    exact rstrip_append_all _ _ h2

/-- The password check performed by `login` at each loop iteration
(src/login.py lines 121-126): strip the entered password, fetch the stored
credential, and accept when the credential is present, non-empty (Python
truthiness of `stored_password_hash`) and `verify_password` succeeds. -/
def loginPasswordOk (pbkdf2 : Str → Str → Str) (sha256 : Str → Str)
    (stored : Option Str) (password : Str) : Bool :=
  match stored with
  | some h => !h.isEmpty && verify_password pbkdf2 sha256 (strip password) h
  | none => false

/-- The credential stored by `register` for an entered password
(src/register.py line 78 then lines 88-93): the password is stripped
before hashing. -/
def registerStoredCredential (pbkdf2 : Str → Str → Str) (salt password : Str) : Str :=
  registerCredential pbkdf2 salt (strip password)

/-- C2: verifying `p` against the credential `salt:PBKDF2(p, salt)` produced
by registration succeeds, and verifying any `p2 ≠ p` against it fails as
long as the two PBKDF2 digests do not collide.  The salt produced by
`secrets.token_hex(16)` is hex, hence colon-free, which is the hypothesis. -/
theorem C2_register_verify_roundtrip (pbkdf2 : Str → Str → Str) (sha256 : Str → Str)
    (salt p : Str) (hsalt : (':' : Char) ∉ salt) :
    verify_password pbkdf2 sha256 p (registerCredential pbkdf2 salt p) = true ∧
    ∀ p2 : Str, p2 ≠ p → pbkdf2 p2 salt ≠ pbkdf2 p salt →
      verify_password pbkdf2 sha256 p2 (registerCredential pbkdf2 salt p) = false := by
  have hmem : (':' : Char) ∈ registerCredential pbkdf2 salt p := by
    unfold registerCredential
    exact List.mem_append_right _ (List.mem_cons_self _ _)
  have hsplit : splitFirst ':' (registerCredential pbkdf2 salt p)
      = some (salt, pbkdf2 p salt) := splitFirst_append ':' salt _ hsalt
  constructor
  · simp [verify_password, hmem, hsplit]
  · intro p2 _ hne
    simp [verify_password, hmem, hsplit, hne]

theorem C2_register_verify_roundtrip_witness :
    ((':' : Char) ∉ chars "ss") ∧
    verify_password (fun p s => p ++ s) id (chars "a")
      (registerCredential (fun p s => p ++ s) (chars "ss") (chars "a")) = true ∧
    verify_password (fun p s => p ++ s) id (chars "b")
      (registerCredential (fun p s => p ++ s) (chars "ss") (chars "a")) = false := by
  have h := C2_register_verify_roundtrip (fun p s => p ++ s) id (chars "ss")
    (chars "a") (by decide)
  exact ⟨by decide, h.1, h.2 (chars "b") (by decide) (by decide)⟩

/-- C10: both `register` and `login` strip the entered password, so logging
in with a whitespace-padded password behaves exactly like logging in with
the unpadded one (against any stored credential, in particular the one
registration created), and a whitespace-only password is stored as the
hash of the empty string. -/
theorem C10_password_stripping (pbkdf2 : Str → Str → Str) (sha256 : Str → Str)
    (salt p w1 w2 : Str) (h1 : ∀ c ∈ w1, isSpace c) (h2 : ∀ c ∈ w2, isSpace c) :
    (∀ stored : Option Str,
      loginPasswordOk pbkdf2 sha256 stored (w1 ++ p ++ w2)
        = loginPasswordOk pbkdf2 sha256 stored p) ∧
    registerStoredCredential pbkdf2 salt (w1 ++ p ++ w2)
      = registerStoredCredential pbkdf2 salt p ∧
    ∀ q : Str, (∀ c ∈ q, isSpace c) →
      registerStoredCredential pbkdf2 salt q = registerCredential pbkdf2 salt [] := by
  have hstrip := strip_pad p w1 w2 h1 h2
  refine ⟨?_, ?_, ?_⟩
  · intro stored
    cases stored with
    | none => rfl
    | some h =>
      have hstrip' : strip (w1 ++ (p ++ w2)) = strip p := by
        rw [← List.append_assoc]; exact hstrip
      simp [loginPasswordOk, hstrip']
  · unfold registerStoredCredential
    rw [hstrip]
  · intro q hq
    unfold registerStoredCredential
    rw [strip_all_space q hq]

theorem C10_password_stripping_witness :
    loginPasswordOk (fun p s => p ++ s) id (some (chars "s:abs")) (chars " ab  ")
      = loginPasswordOk (fun p s => p ++ s) id (some (chars "s:abs")) (chars "ab") ∧
    registerStoredCredential (fun p s => p ++ s) (chars "s") (chars "  ")
      = registerCredential (fun p s => p ++ s) (chars "s") [] := by
  have h := C10_password_stripping (fun p s => p ++ s) id (chars "s") (chars "ab")
    (chars " ") (chars "  ") (by decide) (by decide)
  constructor
  · have h1 := h.1 (some (chars "s:abs"))
    have heq : chars " " ++ chars "ab" ++ chars "  " = chars " ab  " := by decide
    rwa [heq] at h1
  · exact h.2.2 (chars "  ") (by decide)

/-! ## The login state machine (src/login.py `login`) -/

/-- `MAX_ATTEMPTS` (src/login.py line 37). -/
def MAX_ATTEMPTS : Nat := 5

/-- `BLOCK_MINUTES` (src/login.py line 38); time is modelled in minutes. -/
def BLOCK_MINUTES : Nat := 30

/-- One value of the attempts dictionary
(`{"attempts": int, "blocked_until": iso-string-or-None}`); the timestamp
string is modelled as a `Nat` instant. -/
structure AttemptRec where
  attempts : Nat
  blocked_until : Option Nat
deriving DecidableEq, Repr

/-- Python dict lookup (`d.get(k)`), with dicts modelled as insertion-ordered
association lists. -/
def alookup {α : Type} : List (Str × α) → Str → Option α
  | [], _ => none
  | (k, v) :: rest, key => if k = key then some v else alookup rest key

/-- Python dict assignment `d[k] = v`: replaces the value in place when the
key is present, appends otherwise (insertion order preserved). -/
def ainsert {α : Type} : List (Str × α) → Str → α → List (Str × α)
  | [], key, v => [(key, v)]
  | (k, w) :: rest, key, v =>
    if k = key then (key, v) :: rest else (k, w) :: ainsert rest key v

theorem alookup_ainsert_self {α : Type} (l : List (Str × α)) (k : Str) (v : α) :
    alookup (ainsert l k v) k = some v := by
  induction l with
  | nil => simp [ainsert, alookup]
  | cons hd tl ih =>
    by_cases h : hd.1 = k
    · simp [ainsert, h, alookup]
    · simp [ainsert, h, alookup, ih]

theorem alookup_ainsert_ne {α : Type} (l : List (Str × α)) (k k' : Str) (v : α)
    (h : k ≠ k') : alookup (ainsert l k v) k' = alookup l k' := by
  induction l with
  | nil => simp [ainsert, alookup, h]
  | cons hd tl ih =>
    by_cases hh : hd.1 = k
    · simp [ainsert, hh, alookup, h]
    · simp [ainsert, hh, alookup, ih]

theorem ainsert_ainsert {α : Type} (l : List (Str × α)) (k : Str) (v w : α) :
    ainsert (ainsert l k v) k w = ainsert l k w := by
  induction l with
  | nil => simp [ainsert]
  | cons hd tl ih =>
    by_cases h : hd.1 = k
    · simp [ainsert, h]
    · simp [ainsert, h, ih]

/-- Observable events of one `login` call: a password was checked against
the stored credential (line 126), the retry prompt was shown (line 148),
or `save_attempts` wrote the whole attempts dictionary (lines 130, 153). -/
inductive LoginEv where
  | checkedPassword (password : Str)
  | promptRetry (ua : AttemptRec)
  | savedAttempts (store : List (Str × AttemptRec))
deriving DecidableEq, Repr

/-- The `while True` password loop of `login` (src/login.py lines 112-155),
one list element `(passwordInput, retryAnswer)` per iteration; an exhausted
input list behaves like a cancelled password prompt (line 116).  `aliased`
records whether the local `user_attempt` dict is the same object as
`attemptStore[username]` (Python aliasing of `attempts.get`); the rebindings
at lines 110 and 128 clear it.  Returns the Python return value, the final
in-memory attempts dictionary, and the event trace. -/
def loginLoop (pbkdf2 : Str → Str → Str) (sha256 : Str → Str)
    (getHash : Str → Option Str) (username : Str) (now : Nat) :
    List (Option Str × Str) → List (Str × AttemptRec) → Bool → AttemptRec →
    Bool × List (Str × AttemptRec) × List LoginEv
  | [], store, _, _ => (false, store, [])
  | (pwInput, retryAns) :: rest, store, aliased, ua =>
    match pwInput with
    | none => (false, store, [])
    | some pw =>
      if loginPasswordOk pbkdf2 sha256 (getHash username) pw then
        let store' := ainsert store username ⟨0, none⟩
        (true, store', [LoginEv.checkedPassword (strip pw), LoginEv.savedAttempts store'])
      else
        let ua' : AttemptRec := ⟨ua.attempts + 1, ua.blocked_until⟩
        let store1 := if aliased then ainsert store username ua' else store
        if MAX_ATTEMPTS ≤ ua'.attempts then
          let ua2 : AttemptRec := ⟨ua'.attempts, some (now + BLOCK_MINUTES)⟩
          let store2 := if aliased then ainsert store1 username ua2 else store1
          let store3 := ainsert store2 username ua2
          (false, store3,
            [LoginEv.checkedPassword (strip pw), LoginEv.savedAttempts store3])
        else
          if lower (strip retryAns) = chars "y" then
            let out := loginLoop pbkdf2 sha256 getHash username now rest store1 aliased ua'
            (out.1, out.2.1,
              LoginEv.checkedPassword (strip pw) :: LoginEv.promptRetry ua' :: out.2.2)
          else
            let store2 := ainsert store1 username ua'
            (false, store2,
              [LoginEv.checkedPassword (strip pw), LoginEv.promptRetry ua',
               LoginEv.savedAttempts store2])

/-- Case-insensitive username resolution (src/login.py lines 83-88): first
stored key whose lowercasing matches the lowercased input. -/
def findUser : List (Str × Bool) → Str → Option Str
  | [], _ => none
  | (k, _) :: rest, u => if lower k = lower u then some k else findUser rest u

/-- `login` (src/login.py lines 65-155) with the terminal I/O replaced by
explicit inputs: the entered username, the current time (`datetime.now()`,
read once at line 98), and the per-iteration password/retry inputs.
`getHash` stands for `get_user_password_hash` (a read of users.env). -/
def login (pbkdf2 : Str → Str → Str) (sha256 : Str → Str)
    (getHash : Str → Option Str) (users : List (Str × Bool))
    (attemptStore : List (Str × AttemptRec)) (usernameInput : Str) (now : Nat)
    (inputs : List (Option Str × Str)) :
    Bool × List (Str × AttemptRec) × List LoginEv :=
  match findUser users (strip usernameInput) with
  | none => (false, attemptStore, [])
  | some username =>
    let ua := (alookup attemptStore username).getD ⟨0, none⟩
    let aliased := (alookup attemptStore username).isSome
    match ua.blocked_until with
    | some b =>
      if now < b then (false, attemptStore, [])
      else loginLoop pbkdf2 sha256 getHash username now inputs attemptStore false ⟨0, none⟩
    | none => loginLoop pbkdf2 sha256 getHash username now inputs attemptStore aliased ua

/-- Shared helper: the immediate-failure branch for a still-blocked record
(src/login.py lines 101-108). -/
theorem login_blocked_eq (pbkdf2 : Str → Str → Str)
    (sha256 : Str → Str) (getHash : Str → Option Str) (users : List (Str × Bool))
    (store : List (Str × AttemptRec)) (uname u : Str) (ua : AttemptRec)
    (b now : Nat) (inputs : List (Option Str × Str))
    (hfind : findUser users (strip uname) = some u)
    (hua : alookup store u = some ua)
    (hb : ua.blocked_until = some b)
    (hlt : now < b) :
    login pbkdf2 sha256 getHash users store uname now inputs = (false, store, []) := by
  unfold login
  rw [hfind]
  simp only [hua, Option.getD_some, hb, hlt, if_pos]

/-- C3: while a user's attempt record is blocked and the current time is
strictly before `blocked_until`, `login` fails immediately: the store is
returned unchanged and the event trace is empty, so no password is
checked, no counter incremented, nothing persisted. -/
theorem C3_blocked_login_state_unchanged (pbkdf2 : Str → Str → Str)
    (sha256 : Str → Str) (getHash : Str → Option Str) (users : List (Str × Bool))
    (store : List (Str × AttemptRec)) (uname u : Str) (ua : AttemptRec)
    (b now : Nat) (inputs : List (Option Str × Str))
    (hfind : findUser users (strip uname) = some u)
    (hua : alookup store u = some ua)
    (hb : ua.blocked_until = some b)
    (hlt : now < b) :
    login pbkdf2 sha256 getHash users store uname now inputs = (false, store, []) :=
  login_blocked_eq pbkdf2 sha256 getHash users store uname u ua b now inputs
    hfind hua hb hlt

theorem C3_blocked_login_state_unchanged_witness :
    login (fun p s => p ++ s) id (fun _ => some (chars "s:as"))
      [(chars "Ana", false)] [(chars "Ana", ⟨5, some 100⟩)] (chars "ana") 50
      [(some (chars "a"), chars "n")]
      = (false, [(chars "Ana", ⟨5, some 100⟩)], []) :=
  C3_blocked_login_state_unchanged (fun p s => p ++ s) id
    (fun _ => some (chars "s:as")) [(chars "Ana", false)]
    [(chars "Ana", ⟨5, some 100⟩)] (chars "ana") (chars "Ana") ⟨5, some 100⟩
    100 50 [(some (chars "a"), chars "n")] (by decide) (by decide) rfl (by decide)

/-- A single wrong-password iteration that reaches `MAX_ATTEMPTS` sets
`blocked_until = now + BLOCK_MINUTES`, persists, and exits the loop
(src/login.py lines 137-144, 152-153). -/
theorem loginLoop_lockout_step (pbkdf2 : Str → Str → Str) (sha256 : Str → Str)
    (getHash : Str → Option Str) (u : Str) (now : Nat) (pw ans : Str)
    (store : List (Str × AttemptRec)) (aliased : Bool) (ua : AttemptRec)
    (hwrong : loginPasswordOk pbkdf2 sha256 (getHash u) pw = false)
    (hmax : MAX_ATTEMPTS ≤ ua.attempts + 1) :
    loginLoop pbkdf2 sha256 getHash u now [(some pw, ans)] store aliased ua
      = (false, ainsert store u ⟨ua.attempts + 1, some (now + BLOCK_MINUTES)⟩,
         [LoginEv.checkedPassword (strip pw),
          LoginEv.savedAttempts
            (ainsert store u ⟨ua.attempts + 1, some (now + BLOCK_MINUTES)⟩)]) := by
  cases aliased with
  | true => simp [loginLoop, hwrong, hmax, ainsert_ainsert]
  | false => simp [loginLoop, hwrong, hmax]

/-- C1: with a stored counter at `MAX_ATTEMPTS - 1` and no block, one more
wrong password sets `blocked_until` to exactly `now + BLOCK_MINUTES`,
persists the record (the trace's save event carries the updated store),
and any later `login` for that user strictly before `blocked_until`
fails immediately with an empty trace — no password is even checked. -/
theorem C1_fifth_failure_locks_out (pbkdf2 : Str → Str → Str) (sha256 : Str → Str)
    (getHash : Str → Option Str) (users : List (Str × Bool))
    (store : List (Str × AttemptRec)) (uname u pw ans : Str) (t1 : Nat)
    (hfind : findUser users (strip uname) = some u)
    (hua : alookup store u = some ⟨MAX_ATTEMPTS - 1, none⟩)
    (hwrong : loginPasswordOk pbkdf2 sha256 (getHash u) pw = false) :
    login pbkdf2 sha256 getHash users store uname t1 [(some pw, ans)]
      = (false, ainsert store u ⟨MAX_ATTEMPTS, some (t1 + BLOCK_MINUTES)⟩,
         [LoginEv.checkedPassword (strip pw),
          LoginEv.savedAttempts
            (ainsert store u ⟨MAX_ATTEMPTS, some (t1 + BLOCK_MINUTES)⟩)]) ∧
    alookup (ainsert store u ⟨MAX_ATTEMPTS, some (t1 + BLOCK_MINUTES)⟩) u
      = some ⟨MAX_ATTEMPTS, some (t1 + BLOCK_MINUTES)⟩ ∧
    ∀ t2, t2 < t1 + BLOCK_MINUTES → ∀ uname2 inputs2,
      findUser users (strip uname2) = some u →
      login pbkdf2 sha256 getHash users
          (ainsert store u ⟨MAX_ATTEMPTS, some (t1 + BLOCK_MINUTES)⟩) uname2 t2 inputs2
        = (false, ainsert store u ⟨MAX_ATTEMPTS, some (t1 + BLOCK_MINUTES)⟩, []) := by
  have hstep := loginLoop_lockout_step pbkdf2 sha256 getHash u t1 pw ans store true
    ⟨MAX_ATTEMPTS - 1, none⟩ hwrong (by decide)
  have hattempts : MAX_ATTEMPTS - 1 + 1 = MAX_ATTEMPTS := by decide
  refine ⟨?_, ?_, ?_⟩
  · unfold login
    rw [hfind]
    simp only [hua, Option.getD_some, Option.isSome_some]
    rw [hstep, hattempts]
  · exact alookup_ainsert_self store u _
  · intro t2 hlt uname2 inputs2 hfind2
    exact login_blocked_eq pbkdf2 sha256 getHash users
      (ainsert store u ⟨MAX_ATTEMPTS, some (t1 + BLOCK_MINUTES)⟩) uname2 u
      (⟨MAX_ATTEMPTS, some (t1 + BLOCK_MINUTES)⟩ : AttemptRec)
      (t1 + BLOCK_MINUTES) t2 inputs2
      hfind2 (alookup_ainsert_self store u _) rfl hlt

theorem C1_fifth_failure_locks_out_witness :
    login (fun p s => p ++ s) id (fun _ => some (chars "s:as")) [(chars "Ana", false)]
        [(chars "Ana", (⟨4, none⟩ : AttemptRec))] (chars "Ana") 10 [(some (chars "b"), chars "n")]
      = (false,
         ainsert [(chars "Ana", (⟨4, none⟩ : AttemptRec))] (chars "Ana")
           ⟨MAX_ATTEMPTS, some (10 + BLOCK_MINUTES)⟩,
         [LoginEv.checkedPassword (strip (chars "b")),
          LoginEv.savedAttempts
            (ainsert [(chars "Ana", (⟨4, none⟩ : AttemptRec))] (chars "Ana")
              ⟨MAX_ATTEMPTS, some (10 + BLOCK_MINUTES)⟩)]) ∧
    alookup
        (ainsert [(chars "Ana", (⟨4, none⟩ : AttemptRec))] (chars "Ana")
          ⟨MAX_ATTEMPTS, some (10 + BLOCK_MINUTES)⟩) (chars "Ana")
      = some ⟨MAX_ATTEMPTS, some (10 + BLOCK_MINUTES)⟩ ∧
    ∀ t2, t2 < 10 + BLOCK_MINUTES → ∀ uname2 inputs2,
      findUser [(chars "Ana", false)] (strip uname2) = some (chars "Ana") →
      login (fun p s => p ++ s) id (fun _ => some (chars "s:as")) [(chars "Ana", false)]
          (ainsert [(chars "Ana", (⟨4, none⟩ : AttemptRec))] (chars "Ana")
            ⟨MAX_ATTEMPTS, some (10 + BLOCK_MINUTES)⟩) uname2 t2 inputs2
        = (false,
           ainsert [(chars "Ana", (⟨4, none⟩ : AttemptRec))] (chars "Ana")
             ⟨MAX_ATTEMPTS, some (10 + BLOCK_MINUTES)⟩, []) :=
  C1_fifth_failure_locks_out (fun p s => p ++ s) id (fun _ => some (chars "s:as"))
    [(chars "Ana", false)] [(chars "Ana", (⟨4, none⟩ : AttemptRec))] (chars "Ana") (chars "Ana")
    (chars "b") (chars "n") 10 (by decide) (by decide) (by decide)


/-! ## C4: when are failed attempts persisted? -/

/-- True when every save event in the trace occurs only as the very last
event (no persistence happens strictly before the loop exits). -/
def savesOnlyLast : List LoginEv → Bool
  | [] => true
  | e :: rest =>
    match e with
    | LoginEv.savedAttempts _ => rest.isEmpty
    | _ => savesOnlyLast rest

/-- Formalisation of the C4 claim on a trace: every retry prompt for user
`u` is preceded by a save event whose stored record for `u` is the
incremented record shown at the prompt.  The first argument accumulates
the stores saved so far. -/
def coveredPrompts (u : Str) : List (List (Str × AttemptRec)) → List LoginEv → Bool
  | _, [] => true
  | saves, e :: rest =>
    match e with
    | LoginEv.savedAttempts st => coveredPrompts u (st :: saves) rest
    | LoginEv.promptRetry ua =>
      saves.any (fun st => decide (alookup st u = some ua)) && coveredPrompts u saves rest
    | _ => coveredPrompts u saves rest

theorem loginLoop_savesOnlyLast (pbkdf2 : Str → Str → Str) (sha256 : Str → Str)
    (getHash : Str → Option Str) (u : Str) (now : Nat) :
    ∀ (inputs : List (Option Str × Str)) (store : List (Str × AttemptRec))
      (aliased : Bool) (ua : AttemptRec),
      savesOnlyLast (loginLoop pbkdf2 sha256 getHash u now inputs store aliased ua).2.2
        = true := by
  intro inputs
  induction inputs with
  | nil => intro store aliased ua; rfl
  | cons hd rest ih =>
    intro store aliased ua
    obtain ⟨pwInput, retryAns⟩ := hd
    cases pwInput with
    | none => rfl
    | some pw =>
      by_cases hok : loginPasswordOk pbkdf2 sha256 (getHash u) pw = true
      · simp [loginLoop, hok, savesOnlyLast]
      · have hok' : loginPasswordOk pbkdf2 sha256 (getHash u) pw = false :=
          Bool.eq_false_iff.mpr hok
        by_cases hm : MAX_ATTEMPTS ≤ ua.attempts + 1
        · simp [loginLoop, hok', hm, savesOnlyLast]
        · by_cases hy : lower (strip retryAns) = chars "y"
          · simpa [loginLoop, hok', hm, hy, savesOnlyLast] using
              ih (if aliased then ainsert store u ⟨ua.attempts + 1, ua.blocked_until⟩
                  else store) aliased ⟨ua.attempts + 1, ua.blocked_until⟩
          · simp [loginLoop, hok', hm, hy, savesOnlyLast]

/-- The event trace of a session of consecutive failed attempts below the
lockout threshold, answering yes to all retry prompts but the last. -/
def allFailTrace (pw : Str) (finalStore : List (Str × AttemptRec)) :
    Nat → AttemptRec → List LoginEv
  | 0, ua =>
    [LoginEv.checkedPassword (strip pw),
     LoginEv.promptRetry ⟨ua.attempts + 1, ua.blocked_until⟩,
     LoginEv.savedAttempts finalStore]
  | n + 1, ua =>
    LoginEv.checkedPassword (strip pw) ::
      LoginEv.promptRetry ⟨ua.attempts + 1, ua.blocked_until⟩ ::
        allFailTrace pw finalStore n ⟨ua.attempts + 1, ua.blocked_until⟩

/-- C4 counterexample: a fresh user fails once and retries; the trace shows
the retry prompt with the incremented record but no save event before it
(`coveredPrompts` is false), so the incremented record was not persisted
before the user was asked to retry.  The persisted store only appears as
the final event, after the second failure and the declined retry. -/
theorem C4_counterexample :
    (login (fun p s => p ++ s) id (fun _ => some (chars "s:xs")) [(chars "B", false)]
        [] (chars "B") 0 [(some (chars "a"), chars "y"), (some (chars "a"), chars "n")]).2.2
      = [LoginEv.checkedPassword (chars "a"),
         LoginEv.promptRetry ⟨1, none⟩,
         LoginEv.checkedPassword (chars "a"),
         LoginEv.promptRetry ⟨2, none⟩,
         LoginEv.savedAttempts [(chars "B", ⟨2, none⟩)]] ∧
    coveredPrompts (chars "B") []
      (login (fun p s => p ++ s) id (fun _ => some (chars "s:xs")) [(chars "B", false)]
        [] (chars "B") 0 [(some (chars "a"), chars "y"), (some (chars "a"), chars "n")]).2.2
      = false := by
  constructor <;> decide

/-- C4 amended: failed attempts are not persisted before the retry prompt;
the attempts dictionary is saved at most once per login call, as the very
last event, when the loop exits.  For a session of `n + 1` failures below
the lockout threshold ending with a declined retry (fresh, unaliased
record), the single save carries the fully incremented counter. -/
theorem C4_amended_persist_on_exit (pbkdf2 : Str → Str → Str) (sha256 : Str → Str)
    (getHash : Str → Option Str) (u : Str) :
    (∀ (now : Nat) (inputs : List (Option Str × Str)) (store : List (Str × AttemptRec))
       (aliased : Bool) (ua : AttemptRec),
       savesOnlyLast (loginLoop pbkdf2 sha256 getHash u now inputs store aliased ua).2.2
         = true) ∧
    (∀ (n : Nat) (pw ansY ansN : Str) (store : List (Str × AttemptRec)) (now : Nat)
       (ua : AttemptRec),
       loginPasswordOk pbkdf2 sha256 (getHash u) pw = false →
       lower (strip ansY) = chars "y" →
       lower (strip ansN) ≠ chars "y" →
       ua.attempts + n + 1 < MAX_ATTEMPTS →
       loginLoop pbkdf2 sha256 getHash u now
           (List.replicate n (some pw, ansY) ++ [(some pw, ansN)]) store false ua
         = (false, ainsert store u ⟨ua.attempts + n + 1, ua.blocked_until⟩,
            allFailTrace pw (ainsert store u ⟨ua.attempts + n + 1, ua.blocked_until⟩)
              n ua)) := by
  refine ⟨loginLoop_savesOnlyLast pbkdf2 sha256 getHash u, ?_⟩
  intro n
  induction n with
  | zero =>
    intro pw ansY ansN store now ua hfail hy hn hlt
    have hnotmax : ¬ MAX_ATTEMPTS ≤ ua.attempts + 1 := by omega
    simp [loginLoop, hfail, hnotmax, hn, allFailTrace]
  | succ k ih =>
    intro pw ansY ansN store now ua hfail hy hn hlt
    have hnotmax : ¬ MAX_ATTEMPTS ≤ ua.attempts + 1 := by omega
    have hrec := ih pw ansY ansN store now ⟨ua.attempts + 1, ua.blocked_until⟩
      hfail hy hn (by show ua.attempts + 1 + k + 1 < MAX_ATTEMPTS; omega)
    have harith : ua.attempts + 1 + k + 1 = ua.attempts + (k + 1) + 1 := by omega
    simp only [harith] at hrec
    simp only [List.replicate_succ, List.cons_append]
    simp [loginLoop, hfail, hnotmax, hy, allFailTrace, hrec]

theorem C4_amended_persist_on_exit_witness :
    savesOnlyLast
        (loginLoop (fun p s => p ++ s) id (fun _ => some (chars "s:xs")) (chars "B") 0
          [(some (chars "a"), chars "y"), (some (chars "a"), chars "n")] [] false
          ⟨0, none⟩).2.2 = true ∧
    loginLoop (fun p s => p ++ s) id (fun _ => some (chars "s:xs")) (chars "B") 0
        (List.replicate 1 (some (chars "a"), chars "y") ++ [(some (chars "a"), chars "n")])
        [] false ⟨0, none⟩
      = (false, ainsert [] (chars "B") ⟨0 + 1 + 1, none⟩,
         allFailTrace (chars "a") (ainsert [] (chars "B") ⟨0 + 1 + 1, none⟩) 1 ⟨0, none⟩) := by
  have h := C4_amended_persist_on_exit (fun p s => p ++ s) id
    (fun _ => some (chars "s:xs")) (chars "B")
  exact ⟨h.1 0 [(some (chars "a"), chars "y"), (some (chars "a"), chars "n")] [] false
      ⟨0, none⟩,
    h.2 1 (chars "a") (chars "y") (chars "n") [] 0 ⟨0, none⟩ (by decide) (by decide)
      (by decide) (by decide)⟩



/-! ## Registration (src/register.py `register`) -/

/-- The username-selection loop of `register` (src/register.py lines 53-68):
strip the input, reject (and re-prompt) on a case-insensitive collision
with an existing key, then on emptiness; `none` when the supplied inputs
never produce an acceptable username (the Python loop would keep
prompting). -/
def chooseUsername (users : List (Str × Bool)) : List Str → Option Str
  | [] => none
  | u0 :: rest =>
    let u := strip u0
    if users.any (fun kv => decide (lower kv.1 = lower u)) then
      chooseUsername users rest
    else if u = [] then chooseUsername users rest
    else some u

/-- `register` (src/register.py lines 36-98): select a username, read a
password (`none` models a cancelled `get_password_with_asterisks`), then
create the user record, persist it, and store the salted credential.
Returns the Python return value, the users dict, and the
`(username, credential)` pair handed to `save_user_password` (if any).
The fresh salt from `secrets.token_hex(16)` is a parameter. -/
def register (pbkdf2 : Str → Str → Str) (salt : Str) (users : List (Str × Bool))
    (admin : Bool) (usernameInputs : List Str) (passwordInput : Option Str) :
    Bool × List (Str × Bool) × Option (Str × Str) :=
  match chooseUsername users usernameInputs with
  | none => (false, users, none)
  | some username =>
    match passwordInput with
    | none => (false, users, none)
    | some pw =>
      let users2 := ainsert users username admin
      (true, users2, some (username, registerStoredCredential pbkdf2 salt pw))

/-- C5: contrary to the claim, `register` does not validate password
non-emptiness.  The only rejected password input is a cancelled one
(`None`, src/register.py lines 73-76); an empty string passes line 78's
strip unchanged, the user is created, and the stored credential is the
PBKDF2 hash of the empty string.  This contradicts the module's own
documentation ("Password strength validation"), so the code, not the
claim, is wrong. -/
theorem C5_empty_password_creates_user :
    register (fun p s => p ++ s) (chars "s") [] false [chars "bob"] (some [])
      = (true, [(chars "bob", false)],
         some (chars "bob", registerCredential (fun p s => p ++ s) (chars "s") [])) ∧
    register (fun p s => p ++ s) (chars "s") [] false [chars "bob"] (some (chars "   "))
      = (true, [(chars "bob", false)],
         some (chars "bob", registerCredential (fun p s => p ++ s) (chars "s") [])) := by
  constructor <;> decide

/-- C8: after registering "Alice", registering "alice" is rejected as a
duplicate (the username loop accepts nothing, no user is created), and a
login entered as "alice" resolves to the stored canonical-case key
"Alice". -/
theorem C8_case_insensitive_identity :
    (register (fun p s => p ++ s) (chars "s") [] false [chars "Alice"]
        (some (chars "pw"))).2.1
      = [(chars "Alice", false)] ∧
    chooseUsername [(chars "Alice", false)] [chars "alice"] = none ∧
    register (fun p s => p ++ s) (chars "s") [(chars "Alice", false)] false
        [chars "alice"] (some (chars "pw"))
      = (false, [(chars "Alice", false)], none) ∧
    findUser [(chars "Alice", false)] (strip (chars "alice")) = some (chars "Alice") := by
  refine ⟨by decide, by decide, by decide, by decide⟩

/-! ## The flat key=value credential store (src/loads.py, src/saves.py) -/

/-- Split a string at every occurrence of `sep` (the line structure seen by
`for line in f`, with the `\n` terminators dropped). -/
def splitOnChar (sep : Char) : Str → List Str
  | [] => [[]]
  | c :: cs =>
    match splitOnChar sep cs with
    | [] => [[]]
    | h :: t => if c = sep then [] :: h :: t else (c :: h) :: t

/-- One iteration of `_load_env_file`'s loop (src/loads.py lines 29-34):
strip the line; skip blank lines, comment lines and lines without `=`;
otherwise split at the first `=` and assign the stripped key and value. -/
def parseEnvLine (env : List (Str × Str)) (line : Str) : List (Str × Str) :=
  let l := strip line
  if l = [] then env
  else if l.head? = some '#' then env
  else
    match splitFirst '=' l with
    | some (k, v) => ainsert env (strip k) (strip v)
    | none => env

/-- The mapping `_load_env_file` builds from a file's contents. -/
def parseEnv (content : Str) : List (Str × Str) :=
  (splitOnChar '\n' content).foldl parseEnvLine []

/-- Outcome of trying to read a file. -/
inductive ReadResult where
  | missing
  | ioError
  | found (content : Str)
deriving DecidableEq, Repr

/-- `loads._load_env_file` (src/loads.py lines 13-38): missing file →
empty mapping; `OSError`/`IOError` during the read → caught (`pass`),
partial/empty mapping (modelled as empty); otherwise parse the lines. -/
def load_env_file : ReadResult → List (Str × Str)
  | ReadResult.missing => []
  | ReadResult.ioError => []
  | ReadResult.found s => parseEnv s

/-- `loads.load_users_env` (src/loads.py lines 40-47). -/
def load_users_env (r : ReadResult) : List (Str × Str) := load_env_file r

/-- `loads._load_json_file` (src/loads.py lines 59-79), with `json.load`
abstracted as `parse`: missing file → default; `json.JSONDecodeError` /
`ValueError` (parse failure) → default; but an `OSError` raised while
opening or reading the existing file is NOT in the except clause, so it
propagates to the caller (`Except.error`). -/
def load_json_file {V : Type} (parse : Str → Option V) (defaultV : V) :
    ReadResult → Except Unit V
  | ReadResult.missing => Except.ok defaultV
  | ReadResult.ioError => Except.error ()
  | ReadResult.found s =>
    match parse s with
    | some v => Except.ok v
    | none => Except.ok defaultV

/-- `loads.load_users` (src/loads.py lines 81-88). -/
def load_users (parseJson : Str → Option (List (Str × Bool))) (r : ReadResult) :
    Except Unit (List (Str × Bool)) :=
  load_json_file parseJson [] r

/-- `loads.load_attempts` (src/loads.py lines 90-97). -/
def load_attempts (parseJson : Str → Option (List (Str × AttemptRec)))
    (r : ReadResult) : Except Unit (List (Str × AttemptRec)) :=
  load_json_file parseJson [] r

/-- `loads.load_tasks` (src/loads.py lines 119-134): per-user task list,
empty list default. -/
def load_tasks {Task : Type} (parseJson : Str → Option (List Task))
    (r : ReadResult) : Except Unit (List Task) :=
  load_json_file parseJson [] r

/-- C6 counterexample: a read I/O error on an existing users.json makes
`load_users` raise to the caller (`Except.error`), not return the empty
mapping — `_load_json_file`'s except clause lists only
`json.JSONDecodeError` and `ValueError`, not `OSError`. -/
theorem C6_counterexample :
    load_users (fun _ => none) ReadResult.ioError = Except.error () ∧
    load_users (fun _ => none) ReadResult.ioError ≠ Except.ok [] :=
  ⟨rfl, fun h => Except.noConfusion h⟩

/-- C6 amended: every loader returns its empty default for a missing file
and for unparseable contents, and `load_users_env` also swallows read I/O
errors; but the JSON loaders (`load_users`, `load_attempts`, `load_tasks`)
propagate a read I/O error to the caller instead of degrading. -/
theorem C6_amended_load_totality (parseU : Str → Option (List (Str × Bool)))
    (parseA : Str → Option (List (Str × AttemptRec)))
    (parseT : Str → Option (List Str)) (s : Str)
    (hU : parseU s = none) (hA : parseA s = none) (hT : parseT s = none) :
    (load_users_env ReadResult.missing = [] ∧
     load_users_env ReadResult.ioError = []) ∧
    (load_users parseU ReadResult.missing = Except.ok [] ∧
     load_users parseU (ReadResult.found s) = Except.ok [] ∧
     load_users parseU ReadResult.ioError = Except.error ()) ∧
    (load_attempts parseA ReadResult.missing = Except.ok [] ∧
     load_attempts parseA (ReadResult.found s) = Except.ok [] ∧
     load_attempts parseA ReadResult.ioError = Except.error ()) ∧
    (load_tasks parseT ReadResult.missing = Except.ok [] ∧
     load_tasks parseT (ReadResult.found s) = Except.ok [] ∧
     load_tasks parseT ReadResult.ioError = Except.error ()) := by
  refine ⟨⟨rfl, rfl⟩, ⟨rfl, ?_, rfl⟩, ⟨rfl, ?_, rfl⟩, ⟨rfl, ?_, rfl⟩⟩
  · simp [load_users, load_json_file, hU]
  · simp [load_attempts, load_json_file, hA]
  · simp [load_tasks, load_json_file, hT]

theorem C6_amended_load_totality_witness :
    load_users_env ReadResult.ioError = [] ∧
    load_users (fun _ => none) (ReadResult.found (chars "oops")) = Except.ok [] ∧
    load_tasks (fun _ => (none : Option (List Str))) ReadResult.ioError
      = Except.error () := by
  have h := C6_amended_load_totality (fun _ => none) (fun _ => none) (fun _ => none)
    (chars "oops") rfl rfl rfl
  exact ⟨h.1.2, h.2.1.2.1, h.2.2.2.2.2⟩

/-! ## The admin-creation gates (C7) -/

/-- `loads.get_admin_password_hash` (src/loads.py lines 49-57): the
`ADMIN_PASSWORD` entry of the flat store. -/
def get_admin_password_hash (env : List (Str × Str)) : Option Str :=
  alookup env (chars "ADMIN_PASSWORD")

/-- The admin-creation gate of `initial_menu.main_menu`, choice '3'
(src/initial_menu.py lines 120-147): a cancelled prompt denies; otherwise
`register(..., admin=True)` runs only when a stored hash exists, is
truthy (non-empty), and equals the SHA-256 hex digest of the (unstripped)
entered passphrase. -/
def initialMenuAdminGate (sha256 : Str → Str) (adminPassInput : Option Str)
    (env : List (Str × Str)) : Bool :=
  match adminPassInput with
  | none => false
  | some p =>
    match get_admin_password_hash env with
    | some storedHash => !storedHash.isEmpty && decide (sha256 p = storedHash)
    | none => false

/-- The admin-creation gate of the legacy `menu_inicial.main_menu`,
choice '3' (src/menu_inicial.py lines 32-39): the stripped input is
compared in plaintext to the hard-coded literal "cesae123"; no stored
hash and no digest is involved. -/
def menuInicialAdminGate (adminPassInput : Str) : Bool :=
  decide (strip adminPassInput = chars "cesae123")

/-- C7 counterexample: the legacy `menu_inicial` admin-creation path runs
`register(users, admin=True)` for the passphrase "cesae123" in a state
whose flat store holds no `ADMIN_PASSWORD` at all, contradicting the
claim that any admin creation requires the SHA-256 digest of the
passphrase to equal the stored hash and that an absent stored hash
denies. -/
theorem C7_counterexample :
    menuInicialAdminGate (chars "cesae123") = true ∧
    get_admin_password_hash [] = none := by
  exact ⟨by decide, rfl⟩

/-- C7 amended: the `initial_menu` path does gate admin creation on the
SHA-256 digest matching a present, non-empty stored `ADMIN_PASSWORD`
hash (and a cancelled prompt denies); the legacy `menu_inicial` path
instead runs `register(..., admin=True)` exactly when the stripped
passphrase equals the hard-coded literal "cesae123", consulting no
stored hash. -/
theorem C7_amended_two_gates (sha256 : Str → Str) (p : Str)
    (env : List (Str × Str)) (q : Str) :
    (initialMenuAdminGate sha256 (some p) env = true ↔
      ∃ h, get_admin_password_hash env = some h ∧ h ≠ [] ∧ sha256 p = h) ∧
    initialMenuAdminGate sha256 none env = false ∧
    (menuInicialAdminGate q = true ↔ strip q = chars "cesae123") := by
  refine ⟨?_, rfl, by simp [menuInicialAdminGate]⟩
  constructor
  · intro hgate
    unfold initialMenuAdminGate at hgate
    cases hh : get_admin_password_hash env with
    | none => rw [hh] at hgate; exact absurd hgate (by simp)
    | some h =>
      rw [hh] at hgate
      simp only [Bool.and_eq_true, Bool.not_eq_true', List.isEmpty_eq_false,
        decide_eq_true_eq] at hgate
      exact ⟨h, rfl, ⟨by simpa using hgate.1, hgate.2⟩⟩
  · rintro ⟨h, hh, hne, hsha⟩
    unfold initialMenuAdminGate
    rw [hh]
    simp [hsha, hne]



/-! ## Rewriting users.env: `saves.save_user_password` (C9) -/

theorem dropWhile_cons_eq_self {p : Char → Bool} (c : Char) (cs : Str)
    (h : (c :: cs).dropWhile p = c :: cs) : p c = false := by
  by_contra hb
  have hc : p c = true := eq_true_of_ne_false hb
  rw [List.dropWhile_cons, if_pos hc] at h
  have hlen := congrArg List.length h
  have hle : (cs.dropWhile p).length ≤ cs.length :=
    List.Sublist.length_le (List.dropWhile_sublist p)
  simp at hlen
  omega

theorem dropWhile_append_eq_self {p : Char → Bool} (a b : Str)
    (ha : a.dropWhile p = a) (hb : a = [] → b.dropWhile p = b) :
    (a ++ b).dropWhile p = a ++ b := by
  cases a with
  | nil => simpa using hb rfl
  | cons c cs =>
    have hc : p c = false := dropWhile_cons_eq_self c cs ha
    simp [List.dropWhile_cons, hc]

theorem lstrip_eq_self_of_strip (s : Str) (h : strip s = s) : lstrip s = s := by
  have h1 : lstrip s <:+ s := List.dropWhile_suffix _
  have h2 : strip s <+: lstrip s := List.rdropWhile_prefix _ _
  have hlen : s.length ≤ (lstrip s).length := by
    calc s.length = (strip s).length := by rw [h]
    _ ≤ (lstrip s).length := h2.length_le
  exact h1.eq_of_length (Nat.le_antisymm h1.length_le hlen)

theorem rstrip_eq_self_of_strip (s : Str) (h : strip s = s) : rstrip s = s := by
  have hl := lstrip_eq_self_of_strip s h
  unfold strip at h
  rw [hl] at h
  exact h

theorem strip_eq_self_append_entry (k v : Str) (sep : Char)
    (hsep : isSpace sep = false) (hk : strip k = k) (hv : strip v = v) :
    strip (k ++ sep :: v) = k ++ sep :: v := by
  have hlk := lstrip_eq_self_of_strip k hk
  have hrv := rstrip_eq_self_of_strip v hv
  have hl : lstrip (k ++ sep :: v) = k ++ sep :: v := by
    unfold lstrip at hlk ⊢
    exact dropWhile_append_eq_self k (sep :: v) hlk
      (fun _ => by simp [List.dropWhile_cons, hsep])
  have hr : rstrip (k ++ sep :: v) = k ++ sep :: v := by
    unfold rstrip List.rdropWhile
    rw [List.reverse_eq_iff]
    have hrv' : v.reverse.dropWhile isSpace = v.reverse := by
      have hcongr := congrArg List.reverse hrv
      simpa [rstrip, List.rdropWhile] using hcongr
    rw [List.reverse_append, List.reverse_cons, List.append_assoc]
    exact dropWhile_append_eq_self v.reverse ([sep] ++ k.reverse) hrv'
      (fun _ => by simp [List.dropWhile_cons, hsep])
  unfold strip
  rw [hl, hr]

theorem strip_mem (s : Str) (c : Char) (h : c ∈ strip s) : c ∈ s := by
  have h1 : strip s <+: lstrip s := List.rdropWhile_prefix _ _
  have h2 : lstrip s <:+ s := List.dropWhile_suffix _
  exact h2.subset (h1.subset h)

theorem lstrip_prefix_stable (x y : Str) (hx : lstrip x = x) (hpre : y <+: x) :
    lstrip y = y := by
  cases y with
  | nil => rfl
  | cons c cs =>
    obtain ⟨t, ht⟩ := hpre
    rw [← ht] at hx
    have hc := dropWhile_cons_eq_self c (cs ++ t) hx
    simp [lstrip, List.dropWhile_cons, hc]

theorem strip_idem (s : Str) : strip (strip s) = strip s := by
  unfold strip
  have hx : lstrip (lstrip s) = lstrip s := List.dropWhile_idempotent _ _
  have hr : rstrip (rstrip (lstrip s)) = rstrip (lstrip s) :=
    List.rdropWhile_idempotent _ _
  have hlr : lstrip (rstrip (lstrip s)) = rstrip (lstrip s) := by
    have hpre : rstrip (lstrip s) <+: lstrip s := List.rdropWhile_prefix _ _
    exact lstrip_prefix_stable (lstrip s) (rstrip (lstrip s)) hx hpre
  rw [hlr, hr]


/-- The shape invariant of every `(key, value)` pair that `_load_env_file`
can produce (and that survives a faithful rewrite): no newline, stripped
key and value, no `=` in the key, and the key does not begin the line as a
comment. -/
def EntryWF (k v : Str) : Prop :=
  ('\n' : Char) ∉ k ∧ ('=' : Char) ∉ k ∧ strip k = k ∧ k.head? ≠ some '#' ∧
  ('\n' : Char) ∉ v ∧ strip v = v

instance (k v : Str) : Decidable (EntryWF k v) := by
  unfold EntryWF
  infer_instance

theorem splitFirst_eq (sep : Char) (s a b : Str)
    (h : splitFirst sep s = some (a, b)) : s = a ++ sep :: b ∧ sep ∉ a := by
  induction s generalizing a b with
  | nil => simp [splitFirst] at h
  | cons c cs ih =>
    by_cases hc : c = sep
    · rw [splitFirst, if_pos hc] at h
      have hinj := Option.some.inj h
      have ha : ([] : Str) = a := congrArg Prod.fst hinj
      have hb : cs = b := congrArg Prod.snd hinj
      subst hc
      rw [← ha, ← hb]
      simp
    · rw [splitFirst, if_neg hc] at h
      cases hsp : splitFirst sep cs with
      | none => rw [hsp] at h; cases h
      | some ab =>
        obtain ⟨a0, b0⟩ := ab
        rw [hsp] at h
        have hinj := Option.some.inj h
        have ha : c :: a0 = a := congrArg Prod.fst hinj
        have hb : b0 = b := congrArg Prod.snd hinj
        obtain ⟨hcs, hmem⟩ := ih a0 b0 (by rw [hsp, hb])
        rw [← ha, ← hb]
        refine ⟨by rw [hcs, List.cons_append], ?_⟩
        intro hm
        rcases List.mem_cons.mp hm with h1 | h2
        · exact hc h1.symm
        · exact hmem h2

theorem mem_ainsert {α : Type} (l : List (Str × α)) (k : Str) (v : α)
    (kv : Str × α) (h : kv ∈ ainsert l k v) : kv = (k, v) ∨ kv ∈ l := by
  induction l with
  | nil => simpa [ainsert] using h
  | cons hd tl ih =>
    by_cases hh : hd.1 = k
    · rw [ainsert, if_pos hh] at h
      rcases List.mem_cons.mp h with h1 | h2
      · exact Or.inl h1
      · exact Or.inr (List.mem_cons_of_mem hd h2)
    · rw [ainsert, if_neg hh] at h
      rcases List.mem_cons.mp h with h1 | h2
      · exact Or.inr (h1 ▸ List.mem_cons_self hd tl)
      · rcases ih h2 with h3 | h4
        · exact Or.inl h3
        · exact Or.inr (List.mem_cons_of_mem hd h4)

theorem alookup_none_iff {α : Type} (l : List (Str × α)) (k : Str) :
    alookup l k = none ↔ k ∉ l.map Prod.fst := by
  induction l with
  | nil => simp [alookup]
  | cons hd tl ih =>
    obtain ⟨k1, v1⟩ := hd
    by_cases hh : k1 = k
    · subst hh
      rw [alookup, if_pos rfl]
      constructor
      · intro h
        cases h
      · intro hnot
        exfalso
        exact hnot (by rw [List.map_cons]; exact List.mem_cons_self _ _)
    · rw [alookup, if_neg hh, ih]
      simp only [List.map_cons]
      constructor
      · intro hnot hmem
        rcases List.mem_cons.mp hmem with h1 | h2
        · exact hh h1.symm
        · exact hnot h2
      · intro hnot hmem
        exact hnot (List.mem_cons_of_mem _ hmem)

theorem alookup_some_mem {α : Type} (l : List (Str × α)) (k : Str) (v : α)
    (h : alookup l k = some v) : (k, v) ∈ l := by
  induction l with
  | nil => simp [alookup] at h
  | cons hd tl ih =>
    obtain ⟨k1, v1⟩ := hd
    by_cases hh : k1 = k
    · rw [alookup, if_pos hh] at h
      have hv : v1 = v := Option.some.inj h
      rw [← hh, ← hv]
      exact List.mem_cons_self (k1, v1) tl
    · rw [alookup, if_neg hh] at h
      exact List.mem_cons_of_mem (k1, v1) (ih h)

theorem ainsert_of_alookup_none {α : Type} (l : List (Str × α)) (k : Str) (v : α)
    (h : alookup l k = none) : ainsert l k v = l ++ [(k, v)] := by
  induction l with
  | nil => rfl
  | cons hd tl ih =>
    obtain ⟨k1, v1⟩ := hd
    by_cases hh : k1 = k
    · rw [alookup, if_pos hh] at h
      cases h
    · rw [alookup, if_neg hh] at h
      rw [ainsert, if_neg hh, ih h, List.cons_append]

theorem keys_ainsert_of_alookup_some {α : Type} (l : List (Str × α)) (k : Str)
    (v w : α) (h : alookup l k = some w) :
    (ainsert l k v).map Prod.fst = l.map Prod.fst := by
  induction l with
  | nil => simp [alookup] at h
  | cons hd tl ih =>
    obtain ⟨k1, v1⟩ := hd
    by_cases hh : k1 = k
    · rw [ainsert, if_pos hh]
      simp [hh]
    · rw [alookup, if_neg hh] at h
      rw [ainsert, if_neg hh]
      simp [ih h]

theorem nodup_keys_ainsert {α : Type} (l : List (Str × α)) (k : Str) (v : α)
    (h : (l.map Prod.fst).Nodup) : ((ainsert l k v).map Prod.fst).Nodup := by
  cases hl : alookup l k with
  | none =>
    rw [ainsert_of_alookup_none l k v hl]
    rw [List.map_append]
    simp only [List.map_cons, List.map_nil]
    rw [List.nodup_append]
    refine ⟨h, List.nodup_singleton k, ?_⟩
    intro a ha hb
    rw [List.mem_singleton] at hb
    exact (alookup_none_iff l k).mp hl (hb ▸ ha)
  | some w =>
    rw [keys_ainsert_of_alookup_some l k v w hl]
    exact h


/-- Concatenation of `\n`-terminated lines, i.e. the file content produced
by a sequence of `f.write(line + "\n")` calls. -/
def lineJoin (ls : List Str) : Str := ls.foldr (fun l acc => l ++ '\n' :: acc) []

/-- The distinguished `ADMIN_PASSWORD` key. -/
def adminKey : Str := chars "ADMIN_PASSWORD"

/-- The lines written by `save_user_password` (src/saves.py lines 95-108), in
order: two header comments and a blank line (`"...\n"`, `"...\n\n"`); when
`ADMIN_PASSWORD` is present, its comment, its entry and a blank line; the
"# User passwords" comment; then one `key=value` line per non-admin entry in
dict order. -/
def serializedLines (env : List (Str × Str)) : List Str :=
  [chars "# User passwords (SHA256 hashes)",
   chars "# Format: username_password=hash_value", []]
  ++ (match alookup env adminKey with
      | some v => [chars "# Admin password for creating admin users",
                   adminKey ++ '=' :: v, []]
      | none => [])
  ++ [chars "# User passwords"]
  ++ env.filterMap (fun kv =>
      if kv.1 = adminKey then none else some (kv.1 ++ '=' :: kv.2))

/-- The file content written by `save_user_password`. -/
def serializeEnv (env : List (Str × Str)) : Str := lineJoin (serializedLines env)

/-- `saves.save_user_password` (src/saves.py lines 73-108): re-load the
current store (`load_users_env`), upsert the `<lower username>_password`
entry, and rewrite the whole file.  Returns the new file content. -/
def save_user_password (r : ReadResult) (username password_hash : Str) : Str :=
  serializeEnv
    (ainsert (load_users_env r) (lower username ++ chars "_password") password_hash)

theorem splitOnChar_cons (sep c : Char) (cs h : Str) (t : List Str)
    (heq : splitOnChar sep cs = h :: t) :
    splitOnChar sep (c :: cs) = if c = sep then [] :: h :: t else (c :: h) :: t := by
  rw [splitOnChar, heq]

theorem splitOnChar_exists (sep : Char) (s : Str) :
    ∃ h t, splitOnChar sep s = h :: t := by
  induction s with
  | nil => exact ⟨[], [], rfl⟩
  | cons c cs ih =>
    obtain ⟨h, t, heq⟩ := ih
    rw [splitOnChar_cons sep c cs h t heq]
    by_cases hc : c = sep
    · exact ⟨[], h :: t, by rw [if_pos hc]⟩
    · exact ⟨c :: h, t, by rw [if_neg hc]⟩

theorem splitOnChar_sep_not_mem (sep : Char) (s : Str) :
    ∀ piece ∈ splitOnChar sep s, sep ∉ piece := by
  induction s with
  | nil =>
    intro piece hp
    simp [splitOnChar] at hp
    simp [hp]
  | cons c cs ih =>
    intro piece hp
    obtain ⟨h, t, heq⟩ := splitOnChar_exists sep cs
    rw [splitOnChar_cons sep c cs h t heq] at hp
    by_cases hc : c = sep
    · rw [if_pos hc] at hp
      rcases List.mem_cons.mp hp with h1 | h2
      · simp [h1]
      · exact ih piece (heq ▸ h2)
    · rw [if_neg hc] at hp
      rcases List.mem_cons.mp hp with h1 | h2
      · subst h1
        intro hmem
        rcases List.mem_cons.mp hmem with h3 | h4
        · exact hc h3.symm
        · exact ih h (heq ▸ List.mem_cons_self h t) h4
      · exact ih piece (heq ▸ List.mem_cons_of_mem h h2)

theorem splitOnChar_append_line (sep : Char) (l rest : Str) (h : sep ∉ l) :
    splitOnChar sep (l ++ sep :: rest) = l :: splitOnChar sep rest := by
  induction l with
  | nil =>
    obtain ⟨h0, t0, heq⟩ := splitOnChar_exists sep rest
    show splitOnChar sep (sep :: rest) = [] :: splitOnChar sep rest
    rw [splitOnChar_cons sep sep rest h0 t0 heq, if_pos rfl, heq]
  | cons c cs ih =>
    have hc : c ≠ sep := fun hcc => h (hcc ▸ List.mem_cons_self c cs)
    have hcs : sep ∉ cs := fun hm => h (List.mem_cons_of_mem c hm)
    show splitOnChar sep (c :: (cs ++ sep :: rest)) = (c :: cs) :: splitOnChar sep rest
    obtain ⟨h0, t0, heq⟩ := splitOnChar_exists sep rest
    have hmid : splitOnChar sep (cs ++ sep :: rest) = cs :: (h0 :: t0) := by
      rw [ih hcs, heq]
    rw [splitOnChar_cons sep c (cs ++ sep :: rest) cs (h0 :: t0) hmid, if_neg hc, heq]

theorem splitOnChar_lineJoin (ls : List Str) (h : ∀ l ∈ ls, ('\n' : Char) ∉ l) :
    splitOnChar '\n' (lineJoin ls) = ls ++ [[]] := by
  induction ls with
  | nil => rfl
  | cons l rest ih =>
    show splitOnChar '\n' (l ++ '\n' :: lineJoin rest) = (l :: rest) ++ [[]]
    rw [splitOnChar_append_line '\n' l _ (h l (List.mem_cons_self l rest)),
      ih (fun x hx => h x (List.mem_cons_of_mem l hx))]
    rfl

theorem parseEnvLine_blank (env : List (Str × Str)) : parseEnvLine env [] = env := rfl

theorem parseEnvLine_comment (env : List (Str × Str)) (line : Str)
    (h1 : (strip line).head? = some '#') : parseEnvLine env line = env := by
  have hne : ¬ strip line = [] := by
    intro h0
    rw [h0] at h1
    cases h1
  simp only [parseEnvLine, if_neg hne, if_pos h1]

theorem parseEnvLine_entry (env : List (Str × Str)) (k v : Str)
    (hk : strip k = k) (hv : strip v = v) (hkeq : ('=' : Char) ∉ k)
    (hkhead : k.head? ≠ some '#') :
    parseEnvLine env (k ++ '=' :: v) = ainsert env k v := by
  have hstr : strip (k ++ '=' :: v) = k ++ '=' :: v :=
    strip_eq_self_append_entry k v '=' (by decide) hk hv
  have hne : ¬ (k ++ '=' :: v) = ([] : Str) := by simp
  have hhead : (k ++ '=' :: v).head? ≠ some '#' := by
    cases k with
    | nil =>
      intro hcon
      simp at hcon
    | cons c cs =>
      intro hcon
      simp at hcon
      exact hkhead (by simp [hcon])
  have hsplit : splitFirst '=' (k ++ '=' :: v) = some (k, v) :=
    splitFirst_append '=' k v hkeq
  simp only [parseEnvLine, hstr, if_neg hne, if_neg hhead, hsplit]
  show ainsert env (strip k) (strip v) = ainsert env k v
  rw [hk, hv]


theorem parsed_entry_WF (line k0 v0 : Str) (hline : ('\n' : Char) ∉ line)
    (h1 : (strip line).head? ≠ some '#')
    (hsp : splitFirst '=' (strip line) = some (k0, v0)) :
    EntryWF (strip k0) (strip v0) := by
  obtain ⟨hl_eq, hmemk⟩ := splitFirst_eq '=' (strip line) k0 v0 hsp
  refine ⟨?_, ?_, strip_idem k0, ?_, ?_, strip_idem v0⟩
  · intro hmem
    exact hline (strip_mem line '\n'
      (by rw [hl_eq]; exact List.mem_append_left _ (strip_mem k0 '\n' hmem)))
  · intro hmem
    exact hmemk (strip_mem k0 '=' hmem)
  · cases hk0 : strip k0 with
    | nil => simp
    | cons c cs =>
      have hlfix : lstrip (strip line) = strip line :=
        lstrip_eq_self_of_strip (strip line) (strip_idem line)
      have hk0pre : k0 <+: strip line := ⟨'=' :: v0, hl_eq.symm⟩
      have hlk0 : lstrip k0 = k0 := lstrip_prefix_stable (strip line) k0 hlfix hk0pre
      have hpre : strip k0 <+: k0 := by
        rw [strip, hlk0]
        exact List.rdropWhile_prefix _ _
      rw [hk0] at hpre
      obtain ⟨t, ht⟩ := hpre
      have hhead : (strip line).head? = some c := by
        rw [hl_eq, ← ht]
        rfl
      intro hcon
      have hc : c = '#' := by simpa using hcon
      exact h1 (by rw [hhead, hc])
  · intro hmem
    exact hline (strip_mem line '\n'
      (by rw [hl_eq]
          exact List.mem_append_right _
            (List.mem_cons_of_mem _ (strip_mem v0 '\n' hmem))))

theorem parseEnvLine_WF (env : List (Str × Str)) (line : Str)
    (hWF : ∀ kv ∈ env, EntryWF kv.1 kv.2) (hline : ('\n' : Char) ∉ line) :
    ∀ kv ∈ parseEnvLine env line, EntryWF kv.1 kv.2 := by
  intro kv hkv
  by_cases h0 : strip line = []
  · simp only [parseEnvLine, if_pos h0] at hkv
    exact hWF kv hkv
  · by_cases h1 : (strip line).head? = some '#'
    · rw [parseEnvLine_comment env line h1] at hkv
      exact hWF kv hkv
    · cases hsp : splitFirst '=' (strip line) with
      | none =>
        simp only [parseEnvLine, if_neg h0, if_neg h1, hsp] at hkv
        exact hWF kv hkv
      | some p0 =>
        obtain ⟨k0, v0⟩ := p0
        simp only [parseEnvLine, if_neg h0, if_neg h1, hsp] at hkv
        rcases mem_ainsert env (strip k0) (strip v0) kv hkv with heq | hmem
        · rw [heq]
          exact parsed_entry_WF line k0 v0 hline h1 hsp
        · exact hWF kv hmem

theorem foldl_parseEnvLine_WF (lines : List Str) (env : List (Str × Str))
    (hWF : ∀ kv ∈ env, EntryWF kv.1 kv.2)
    (hlines : ∀ l ∈ lines, ('\n' : Char) ∉ l) :
    ∀ kv ∈ List.foldl parseEnvLine env lines, EntryWF kv.1 kv.2 := by
  induction lines generalizing env with
  | nil => exact hWF
  | cons l rest ih =>
    exact ih (parseEnvLine env l)
      (parseEnvLine_WF env l hWF (hlines l (List.mem_cons_self l rest)))
      (fun x hx => hlines x (List.mem_cons_of_mem l hx))

theorem parseEnv_WF (content : Str) : ∀ kv ∈ parseEnv content, EntryWF kv.1 kv.2 :=
  foldl_parseEnvLine_WF (splitOnChar '\n' content) []
    (fun kv h => absurd h (List.not_mem_nil kv))
    (splitOnChar_sep_not_mem '\n' content)

theorem parseEnvLine_nodup (env : List (Str × Str)) (line : Str)
    (h : (env.map Prod.fst).Nodup) :
    ((parseEnvLine env line).map Prod.fst).Nodup := by
  by_cases h0 : strip line = []
  · simp only [parseEnvLine, if_pos h0]
    exact h
  · by_cases h1 : (strip line).head? = some '#'
    · rw [parseEnvLine_comment env line h1]
      exact h
    · cases hsp : splitFirst '=' (strip line) with
      | none =>
        simp only [parseEnvLine, if_neg h0, if_neg h1, hsp]
        exact h
      | some p0 =>
        obtain ⟨k0, v0⟩ := p0
        simp only [parseEnvLine, if_neg h0, if_neg h1, hsp]
        exact nodup_keys_ainsert env (strip k0) (strip v0) h

theorem foldl_parseEnvLine_nodup (lines : List Str) (env : List (Str × Str))
    (h : (env.map Prod.fst).Nodup) :
    ((List.foldl parseEnvLine env lines).map Prod.fst).Nodup := by
  induction lines generalizing env with
  | nil => exact h
  | cons l rest ih => exact ih (parseEnvLine env l) (parseEnvLine_nodup env l h)

theorem parseEnv_nodup (content : Str) :
    ((parseEnv content).map Prod.fst).Nodup :=
  foldl_parseEnvLine_nodup (splitOnChar '\n' content) [] List.nodup_nil

theorem alookup_append_of_none {α : Type} (l1 l2 : List (Str × α)) (k : Str)
    (h : alookup l1 k = none) : alookup (l1 ++ l2) k = alookup l2 k := by
  induction l1 with
  | nil => rfl
  | cons hd tl ih =>
    obtain ⟨k1, v1⟩ := hd
    by_cases hh : k1 = k
    · rw [alookup, if_pos hh] at h
      cases h
    · rw [alookup, if_neg hh] at h
      rw [List.cons_append, alookup, if_neg hh]
      exact ih h

theorem foldl_parseEnvLine_entries (entries : List (Str × Str))
    (env : List (Str × Str)) (hWF : ∀ kv ∈ entries, EntryWF kv.1 kv.2) :
    List.foldl parseEnvLine env (entries.map (fun kv => kv.1 ++ '=' :: kv.2))
      = List.foldl (fun e kv => ainsert e kv.1 kv.2) env entries := by
  induction entries generalizing env with
  | nil => rfl
  | cons kv rest ih =>
    obtain ⟨k0, v0⟩ := kv
    obtain ⟨_, hk2, hk3, hk4, _, hv2⟩ := hWF (k0, v0) (List.mem_cons_self _ _)
    simp only [List.map_cons, List.foldl_cons]
    rw [parseEnvLine_entry env k0 v0 hk3 hv2 hk2 hk4]
    exact ih _ (fun kv2 h2 => hWF kv2 (List.mem_cons_of_mem _ h2))

theorem foldl_ainsert_fresh {α : Type} (entries : List (Str × α))
    (acc : List (Str × α))
    (hdisj : ∀ kv ∈ entries, alookup acc kv.1 = none)
    (hnd : (entries.map Prod.fst).Nodup) :
    List.foldl (fun e kv => ainsert e kv.1 kv.2) acc entries = acc ++ entries := by
  induction entries generalizing acc with
  | nil => simp
  | cons kv rest ih =>
    obtain ⟨k0, v0⟩ := kv
    simp only [List.foldl_cons]
    have hacc : alookup acc k0 = none := hdisj (k0, v0) (List.mem_cons_self _ _)
    rw [ainsert_of_alookup_none acc k0 v0 hacc]
    rw [List.map_cons, List.nodup_cons] at hnd
    have hdisj2 : ∀ kv2 ∈ rest, alookup (acc ++ [(k0, v0)]) kv2.1 = none := by
      intro kv2 h2
      rw [alookup_append_of_none acc _ _ (hdisj kv2 (List.mem_cons_of_mem _ h2))]
      have hne : ¬ k0 = kv2.1 := by
        intro he
        have hmem : kv2.1 ∈ rest.map Prod.fst := List.mem_map_of_mem Prod.fst h2
        rw [← he] at hmem
        exact hnd.1 hmem
      rw [alookup, if_neg hne]
      rfl
    rw [ih (acc ++ [(k0, v0)]) hdisj2 hnd.2, List.append_assoc]
    rfl


/-- The non-`ADMIN_PASSWORD` entries, in dict order (the iteration at
src/saves.py lines 106-108). -/
def nonAdmin (env : List (Str × Str)) : List (Str × Str) :=
  env.filter (fun kv => !decide (kv.1 = adminKey))

/-- The mapping as re-read from a rewritten users.env file: the
`ADMIN_PASSWORD` entry first (when present), then the other entries in
their original dict order. -/
def adminFront (env : List (Str × Str)) : List (Str × Str) :=
  match alookup env adminKey with
  | some v => (adminKey, v) :: nonAdmin env
  | none => nonAdmin env

theorem mem_nonAdmin (env : List (Str × Str)) (kv : Str × Str) :
    kv ∈ nonAdmin env ↔ kv ∈ env ∧ kv.1 ≠ adminKey := by
  simp [nonAdmin, List.mem_filter]

theorem filterMap_entry_lines (env : List (Str × Str)) :
    env.filterMap (fun kv =>
        if kv.1 = adminKey then none else some (kv.1 ++ '=' :: kv.2))
      = (nonAdmin env).map (fun kv => kv.1 ++ '=' :: kv.2) := by
  induction env with
  | nil => rfl
  | cons kv rest ih =>
    by_cases h : kv.1 = adminKey
    · simp [List.filterMap_cons, nonAdmin, List.filter_cons, h, ih]
    · simp [List.filterMap_cons, nonAdmin, List.filter_cons, h, ih]

theorem nonAdmin_keys_nodup (env : List (Str × Str))
    (h : (env.map Prod.fst).Nodup) : ((nonAdmin env).map Prod.fst).Nodup :=
  List.Nodup.sublist ((List.filter_sublist env).map Prod.fst) h

theorem entry_line_no_newline (k v : Str) (hk : ('\n' : Char) ∉ k)
    (hv : ('\n' : Char) ∉ v) : ('\n' : Char) ∉ k ++ '=' :: v := by
  intro h
  rcases List.mem_append.mp h with h1 | h2
  · exact hk h1
  · rcases List.mem_cons.mp h2 with h3 | h4
    · exact absurd h3 (by decide)
    · exact hv h4

/-- Re-parsing the file written by `save_user_password` recovers exactly the
in-memory mapping, with the `ADMIN_PASSWORD` entry moved to the front. -/
theorem parseEnv_serializeEnv (env : List (Str × Str))
    (hWF : ∀ kv ∈ env, EntryWF kv.1 kv.2)
    (hnd : (env.map Prod.fst).Nodup) :
    parseEnv (serializeEnv env) = adminFront env := by
  have hWFna : ∀ kv ∈ nonAdmin env, EntryWF kv.1 kv.2 :=
    fun kv h => hWF kv ((mem_nonAdmin env kv).mp h).1
  have hlinesNA : ∀ l ∈ (nonAdmin env).map (fun kv => kv.1 ++ '=' :: kv.2),
      ('\n' : Char) ∉ l := by
    intro l hl
    obtain ⟨kv, hkv, rfl⟩ := List.mem_map.mp hl
    obtain ⟨w1, _, _, _, w5, _⟩ := hWFna kv hkv
    exact entry_line_no_newline kv.1 kv.2 w1 w5
  cases hadm : alookup env adminKey with
  | none =>
    have hsl : serializedLines env
        = chars "# User passwords (SHA256 hashes)"
          :: chars "# Format: username_password=hash_value"
          :: [] :: chars "# User passwords"
          :: (nonAdmin env).map (fun kv => kv.1 ++ '=' :: kv.2) := by
      unfold serializedLines
      rw [hadm, filterMap_entry_lines]
      rfl
    have hlines : ∀ l ∈ serializedLines env, ('\n' : Char) ∉ l := by
      rw [hsl]
      intro l hl
      rcases List.mem_cons.mp hl with h1 | hl
      · rw [h1]; decide
      rcases List.mem_cons.mp hl with h1 | hl
      · rw [h1]; decide
      rcases List.mem_cons.mp hl with h1 | hl
      · rw [h1]; decide
      rcases List.mem_cons.mp hl with h1 | hl
      · rw [h1]; decide
      exact hlinesNA l hl
    unfold parseEnv serializeEnv
    rw [splitOnChar_lineJoin _ hlines, List.foldl_append]
    rw [List.foldl_cons, List.foldl_nil, parseEnvLine_blank]
    rw [hsl]
    rw [List.foldl_cons, parseEnvLine_comment _ _ (by decide)]
    rw [List.foldl_cons, parseEnvLine_comment _ _ (by decide)]
    rw [List.foldl_cons, parseEnvLine_blank]
    rw [List.foldl_cons, parseEnvLine_comment _ _ (by decide)]
    rw [foldl_parseEnvLine_entries (nonAdmin env) [] hWFna]
    rw [foldl_ainsert_fresh (nonAdmin env) [] (fun kv _ => rfl)
      (nonAdmin_keys_nodup env hnd)]
    unfold adminFront
    rw [hadm, List.nil_append]
  | some v =>
    have hvWF : EntryWF adminKey v := by
      have hmem : (adminKey, v) ∈ env := alookup_some_mem env adminKey v hadm
      exact hWF (adminKey, v) hmem
    have hsl : serializedLines env
        = chars "# User passwords (SHA256 hashes)"
          :: chars "# Format: username_password=hash_value"
          :: [] :: chars "# Admin password for creating admin users"
          :: (adminKey ++ '=' :: v)
          :: [] :: chars "# User passwords"
          :: (nonAdmin env).map (fun kv => kv.1 ++ '=' :: kv.2) := by
      unfold serializedLines
      rw [hadm, filterMap_entry_lines]
      rfl
    have hlines : ∀ l ∈ serializedLines env, ('\n' : Char) ∉ l := by
      rw [hsl]
      intro l hl
      rcases List.mem_cons.mp hl with h1 | hl
      · rw [h1]; decide
      rcases List.mem_cons.mp hl with h1 | hl
      · rw [h1]; decide
      rcases List.mem_cons.mp hl with h1 | hl
      · rw [h1]; decide
      rcases List.mem_cons.mp hl with h1 | hl
      · rw [h1]; decide
      rcases List.mem_cons.mp hl with h1 | hl
      · rw [h1]
        exact entry_line_no_newline adminKey v (by decide) hvWF.2.2.2.2.1
      rcases List.mem_cons.mp hl with h1 | hl
      · rw [h1]; decide
      rcases List.mem_cons.mp hl with h1 | hl
      · rw [h1]; decide
      exact hlinesNA l hl
    unfold parseEnv serializeEnv
    rw [splitOnChar_lineJoin _ hlines, List.foldl_append]
    rw [List.foldl_cons, List.foldl_nil, parseEnvLine_blank]
    rw [hsl]
    rw [List.foldl_cons, parseEnvLine_comment _ _ (by decide)]
    rw [List.foldl_cons, parseEnvLine_comment _ _ (by decide)]
    rw [List.foldl_cons, parseEnvLine_blank]
    rw [List.foldl_cons, parseEnvLine_comment _ _ (by decide)]
    rw [List.foldl_cons,
      parseEnvLine_entry [] adminKey v (by decide) hvWF.2.2.2.2.2 (by decide) (by decide)]
    rw [List.foldl_cons, parseEnvLine_blank]
    rw [List.foldl_cons, parseEnvLine_comment _ _ (by decide)]
    rw [foldl_parseEnvLine_entries (nonAdmin env) (ainsert [] adminKey v) hWFna]
    have hdisj : ∀ kv ∈ nonAdmin env, alookup (ainsert [] adminKey v) kv.1 = none := by
      intro kv hkv
      have hne : ¬ adminKey = kv.1 :=
        fun he => ((mem_nonAdmin env kv).mp hkv).2 he.symm
      show alookup [(adminKey, v)] kv.1 = none
      rw [alookup, if_neg hne]
      rfl
    rw [foldl_ainsert_fresh (nonAdmin env) (ainsert [] adminKey v) hdisj
      (nonAdmin_keys_nodup env hnd)]
    unfold adminFront
    rw [hadm]
    rfl


theorem alookup_nonAdmin_ne (env : List (Str × Str)) (k : Str)
    (h : k ≠ adminKey) : alookup (nonAdmin env) k = alookup env k := by
  induction env with
  | nil => rfl
  | cons hd tl ih =>
    obtain ⟨k1, v1⟩ := hd
    by_cases h1 : k1 = adminKey
    · have hk1 : ¬ k1 = k := fun he => h (he ▸ h1)
      have hfil : nonAdmin ((k1, v1) :: tl) = nonAdmin tl := by
        simp [nonAdmin, List.filter_cons, h1]
      rw [hfil, alookup, if_neg hk1]
      exact ih
    · have hfil : nonAdmin ((k1, v1) :: tl) = (k1, v1) :: nonAdmin tl := by
        simp [nonAdmin, List.filter_cons, h1]
      rw [hfil]
      by_cases hk1 : k1 = k
      · rw [alookup, if_pos hk1, alookup, if_pos hk1]
      · rw [alookup, if_neg hk1, alookup, if_neg hk1]
        exact ih

theorem alookup_nonAdmin_adminKey (env : List (Str × Str)) :
    alookup (nonAdmin env) adminKey = none := by
  induction env with
  | nil => rfl
  | cons hd tl ih =>
    obtain ⟨k1, v1⟩ := hd
    by_cases h1 : k1 = adminKey
    · have hfil : nonAdmin ((k1, v1) :: tl) = nonAdmin tl := by
        simp [nonAdmin, List.filter_cons, h1]
      rw [hfil]
      exact ih
    · have hfil : nonAdmin ((k1, v1) :: tl) = (k1, v1) :: nonAdmin tl := by
        simp [nonAdmin, List.filter_cons, h1]
      rw [hfil, alookup, if_neg h1]
      exact ih

theorem alookup_adminFront (env : List (Str × Str)) (k : Str) :
    alookup (adminFront env) k = alookup env k := by
  cases hadm : alookup env adminKey with
  | some v =>
    unfold adminFront
    rw [hadm]
    by_cases hk : k = adminKey
    · rw [hk, alookup, if_pos rfl, hadm]
    · have hne : ¬ adminKey = k := fun he => hk he.symm
      rw [alookup, if_neg hne]
      exact alookup_nonAdmin_ne env k hk
  | none =>
    unfold adminFront
    rw [hadm]
    by_cases hk : k = adminKey
    · rw [hk, alookup_nonAdmin_adminKey env, hadm]
    · exact alookup_nonAdmin_ne env k hk

theorem save_key_ne_adminKey (username : Str) :
    lower username ++ chars "_password" ≠ adminKey := by
  intro he
  have h1 : (lower username ++ chars "_password").getLast? = some 'd' := by
    rw [List.getLast?_append_of_ne_nil _ (by decide)]
    decide
  rw [he] at h1
  exact absurd h1 (by decide)

/-- C9: `save_user_password` upserts exactly the `<lower username>_password`
entry: after the rewrite, re-reading the flat store (`parseEnv` of the new
file content, i.e. a subsequent `load_users_env`) yields the old mapping
with only that one entry updated, and an existing `ADMIN_PASSWORD` entry is
re-emitted first in the rewritten file.  The hypothesis is the shape
invariant of the new entry, satisfied by every credential the program
writes (a stripped, newline-free username and a hex `salt:digest` value). -/
theorem C9_save_user_password_frame (r : ReadResult) (username password_hash : Str)
    (hWFnew : EntryWF (lower username ++ chars "_password") password_hash) :
    (∀ k, alookup (parseEnv (save_user_password r username password_hash)) k
        = if k = lower username ++ chars "_password" then some password_hash
          else alookup (load_users_env r) k) ∧
    (∀ v, alookup (load_users_env r) adminKey = some v →
      (parseEnv (save_user_password r username password_hash)).head?
        = some (adminKey, v)) := by
  have hWF0 : ∀ kv ∈ load_users_env r, EntryWF kv.1 kv.2 := by
    cases r with
    | missing => intro kv h; cases h
    | ioError => intro kv h; cases h
    | found s => exact parseEnv_WF s
  have hnd0 : ((load_users_env r).map Prod.fst).Nodup := by
    cases r with
    | missing => exact List.nodup_nil
    | ioError => exact List.nodup_nil
    | found s => exact parseEnv_nodup s
  have hWF2 : ∀ kv ∈ ainsert (load_users_env r)
      (lower username ++ chars "_password") password_hash, EntryWF kv.1 kv.2 := by
    intro kv h
    rcases mem_ainsert _ _ _ kv h with heq | hmem
    · rw [heq]
      exact hWFnew
    · exact hWF0 kv hmem
  have hnd2 := nodup_keys_ainsert (load_users_env r)
    (lower username ++ chars "_password") password_hash hnd0
  have hser := parseEnv_serializeEnv
    (ainsert (load_users_env r) (lower username ++ chars "_password") password_hash)
    hWF2 hnd2
  constructor
  · intro k
    show alookup (parseEnv (serializeEnv _)) k = _
    rw [hser, alookup_adminFront]
    by_cases hk : k = lower username ++ chars "_password"
    · rw [if_pos hk, hk]
      exact alookup_ainsert_self (load_users_env r) _ password_hash
    · rw [if_neg hk]
      exact alookup_ainsert_ne (load_users_env r) _ k password_hash
        (fun he => hk he.symm)
  · intro v hv
    have hv2 : alookup (ainsert (load_users_env r)
        (lower username ++ chars "_password") password_hash) adminKey = some v := by
      rw [alookup_ainsert_ne (load_users_env r) _ adminKey password_hash
        (save_key_ne_adminKey username)]
      exact hv
    show (parseEnv (serializeEnv _)).head? = _
    rw [hser]
    unfold adminFront
    rw [hv2]
    rfl

theorem C9_save_user_password_frame_witness :
    EntryWF (lower (chars "Bob") ++ chars "_password") (chars "s:abc") ∧
    alookup
        (parseEnv (save_user_password
          (ReadResult.found (chars "ADMIN_PASSWORD=h0\nother=1\nbob_password=old\n"))
          (chars "Bob") (chars "s:abc")))
        (chars "bob_password") = some (chars "s:abc") ∧
    alookup
        (parseEnv (save_user_password
          (ReadResult.found (chars "ADMIN_PASSWORD=h0\nother=1\nbob_password=old\n"))
          (chars "Bob") (chars "s:abc")))
        (chars "other")
      = alookup (load_users_env (ReadResult.found
          (chars "ADMIN_PASSWORD=h0\nother=1\nbob_password=old\n"))) (chars "other") ∧
    (parseEnv (save_user_password
        (ReadResult.found (chars "ADMIN_PASSWORD=h0\nother=1\nbob_password=old\n"))
        (chars "Bob") (chars "s:abc"))).head?
      = some (adminKey, chars "h0") := by
  have h := C9_save_user_password_frame
    (ReadResult.found (chars "ADMIN_PASSWORD=h0\nother=1\nbob_password=old\n"))
    (chars "Bob") (chars "s:abc") (by decide)
  refine ⟨by decide, ?_, ?_, ?_⟩
  · have h1 := h.1 (chars "bob_password")
    rw [if_pos (by decide)] at h1
    exact h1
  · have h1 := h.1 (chars "other")
    rw [if_neg (by decide)] at h1
    exact h1
  · exact h.2 (chars "h0") (by decide)

end TaskMgr
